import Mathlib

/-!
# Verification of the docstring translation core of `transpyimo.py`

A shallow embedding of the docstring structural parser and re-wrap engine:
lines are `List Char`, Python strings are modelled by their character lists,
machine integers by `Int`/`Nat`.  The `TranslationBuffer` class becomes a
`Config` (the constructor arguments that never change) together with a
`BufState` (the mutable fields); its methods become state-passing functions.
Fallible code (Python `IndexError`) is modelled with `Option`.
-/

namespace Transpyimo

/-- A Python string, modelled as its list of characters. -/
abbrev Line := List Char

/-- Python `str.isspace` / the whitespace set used by `str.strip()`
(restricted to the ASCII whitespace characters). -/
def pyIsSpace (c : Char) : Bool :=
  c == ' ' || c == '\t' || c == '\n' || c == '\r' || c == '\x0b' || c == '\x0c'

/-- Python `str.strip()`: drop leading and trailing whitespace. -/
def pyStripList (l : Line) : Line :=
  ((l.dropWhile pyIsSpace).reverse.dropWhile pyIsSpace).reverse

/-- Python slicing `s[:n]` (a negative `n` counts from the end, clamped at 0). -/
def pySliceTo (s : Line) (n : Int) : Line :=
  s.take ((if n < 0 then (s.length : Int) + n else n).toNat)

/-- Python slicing `s[n:]` for a non-negative `n`. -/
def pySliceFrom (s : Line) (n : Nat) : Line := s.drop n

/-- Python `s.find(sub)`: index of the first occurrence of `sub` in `s`,
`-1` when there is none. -/
def pyFind (sub : Line) : Line → Int
  | [] => if sub.isPrefixOf ([] : Line) then 0 else -1
  | c :: rest =>
    if sub.isPrefixOf (c :: rest) then 0
    else
      let r := pyFind sub rest
      if r = -1 then -1 else r + 1

/-- Python `str.splitlines()` restricted to the `'\n'` line boundary:
`""` gives `[]`, a trailing newline produces no extra empty line. -/
def pySplitlinesAux (cur : Line) : Line → List Line
  | [] => [cur.reverse]
  | ['\n'] => [cur.reverse]
  | '\n' :: rest => cur.reverse :: pySplitlinesAux [] rest
  | c :: rest => pySplitlinesAux (c :: cur) rest

/-- Python `str.splitlines()` (newline boundaries only). -/
def pySplitlines : Line → List Line
  | [] => []
  | l => pySplitlinesAux [] l

/-- Source line 15, the decoration symbol set; the backquote, apostrophe
and double quote are written with hex escapes. -/
def SECTION_DECORATOR : List Char :=
  ['=', '-', '\x60', ':', '.', '\x27', '\x22', '~', '^', '_', '*', '+', '#']

/-- Source line 16, the bullet decorators. -/
def LIST_DECORATORS : List Line := [['-'], ['*'], ['#', '.'], ['|']]

/-- Model of `ORDERED_LIST_PATTERN.match(text)` for the regex `^\d+\.`
(source line 17): one or more leading (ASCII) digits followed by a period;
returns the matched text `match[0]`, i.e. the digits and the period.  Note
the pattern requires no space after the period.  The greedy `\d+` is the
maximal digit run (`takeWhile`), after which the next character must be a
period. -/
def orderedListMatch (text : Line) : Option Line :=
  let ds := text.takeWhile Char.isDigit
  if ds = [] then none
  else if ['.'].isPrefixOf (text.drop ds.length) then some (ds ++ ['.'])
  else none

/-- Model of `_split_indent` (source lines 73-78): `(line, '')` for a blank
line, otherwise `(line[:line.find(text)], text)` where
`text = line.strip()`. -/
def splitIndent (line : Line) : Line × Line :=
  let text := pyStripList line
  if text = [] then (line, [])
  else (pySliceTo line (pyFind text line), text)

/-- Model of `_is_section_decoration` (source lines 81-88): the first
character is a decoration symbol and every other character equals it.  The
source indexes `text[0]`; it is only called on non-empty stripped text, and
the `[]` branch here is unreachable from the driver. -/
def isSectionDecoration (text : Line) : Bool :=
  match text with
  | [] => false
  | c :: rest => SECTION_DECORATOR.contains c && rest.all (· == c)

/-- Model of `_split_header` (source lines 91-94):
`body = text[len(header):].strip(); header = text[:text.find(body)]`. -/
def splitHeader (text header : Line) : Line × Line :=
  let body := pyStripList (pySliceFrom text header.length)
  (pySliceTo text (pyFind body text), body)

/-- Model of `_try_split_list_header` (source lines 97-106): try the bullet
decorators (each followed by a space) in order, then the ordered-list
pattern; otherwise not a list. -/
def trySplitListHeader (text : Line) : Bool × Line × Line :=
  match LIST_DECORATORS.find? (fun d => (d ++ [' ']).isPrefixOf text) with
  | some d => (true, (splitHeader text d).1, (splitHeader text d).2)
  | none =>
    match orderedListMatch text with
    | some m => (true, (splitHeader text m).1, (splitHeader text m).2)
    | none => (false, [], text)

/-- Modelled from the spec: the line-wrapping primitive
(`sphinx.writers.text.my_wrap`, imported on source line 12) is an external
collaborator whose code is not part of this repository.  Per the spec it is
a generic greedy word wrap: split at whitespace into words, then pack words
greedily into lines joined with single spaces, never exceeding the width
except for a single over-long word, never splitting mid-word.
`splitWordsAux` accumulates the current word reversed. -/
def splitWordsAux (cur : Line) : Line → List Line
  | [] => if cur = [] then [] else [cur.reverse]
  | c :: rest =>
    if pyIsSpace c then
      if cur = [] then splitWordsAux [] rest
      else cur.reverse :: splitWordsAux [] rest
    else splitWordsAux (c :: cur) rest

/-- Split a text into its maximal whitespace-free words. -/
def splitWords (l : Line) : List Line := splitWordsAux [] l

/-- Greedy packing of words into lines of width at most `w` (an over-long
single word still gets a line of its own). -/
def packWords (w : Int) (cur : Line) : List Line → List Line
  | [] => [cur]
  | word :: rest =>
    if (cur.length : Int) + 1 + word.length ≤ w then
      packWords w (cur ++ ' ' :: word) rest
    else cur :: packWords w word rest

/-- Modelled from the spec: the supplied wrap primitive (`my_wrap`).  For a
whitespace-only text it produces no lines (as Python `textwrap` does). -/
def sphinxWrap (text : Line) (width : Int) : List Line :=
  match splitWords text with
  | [] => []
  | word :: rest => packWords width word rest

/-- Model of the single-space join over the buffered fragments. -/
def joinSp : List Line → Line
  | [] => []
  | [w] => w
  | w :: ws => w ++ ' ' :: joinSp ws

/-- The immutable constructor arguments of `TranslationBuffer`
(source lines 21-24): the catalog lookup `translation.gettext`, the
configured `line_width` and the docstring's `base_indent`. -/
structure Config where
  tr : Line → Line
  line_width : Int
  base_indent : Line

/-- The mutable fields of `TranslationBuffer` (source lines 25-28). -/
structure BufState where
  start_at : Int
  indent : Line
  lines : List Line
  original_lines : List Line
deriving DecidableEq, Repr

/-- Model of `_reset` (source lines 30-34), also the state right after the constructor runs. -/
def resetState : BufState := ⟨-1, [], [], []⟩

/-- Model of `put` (source lines 65-70): record `start_at` and `indent` when the
unit is empty, then append the fragment and the raw line. -/
def put (st : BufState) (line_no : Nat) (indent text original : Line) : BufState :=
  { start_at := if st.lines = [] then (line_no : Int) else st.start_at
    indent := if st.lines = [] then indent else st.indent
    lines := st.lines ++ [text]
    original_lines := st.original_lines ++ [original] }

/-- Model of `flush_original` (source lines 36-39): emit the stored raw lines and
reset. -/
def flushOriginal (st : BufState) : List Line × BufState :=
  (st.original_lines, resetState)

/-- Model of `flush_translated` (source lines 41-63).  An empty unit returns no
lines without resetting.  Otherwise the fragments are joined with single
spaces, translated, and either emitted as one line (`line_width <= 0`) or
wrapped: the wrap width is `line_width - first_size`, the first output line
is prefixed with the unit's indent and every later line with `indent_size`
spaces.  When the wrap returns no lines Python raises `IndexError` at
`translated_lines[0]`; this is modelled as `none`. -/
def flushTranslated (cfg : Config) (st : BufState) : Option (List Line × BufState) :=
  if st.lines = [] then some ([], st)
  else
    let translated := cfg.tr (joinSp st.lines)
    if cfg.line_width ≤ 0 then
      some ([st.indent ++ translated], resetState)
    else
      let indent_size := max st.indent.length cfg.base_indent.length
      let first_size :=
        if st.start_at = 0 then
          max st.indent.length (cfg.base_indent.length + 3)
        else indent_size
      match sphinxWrap translated (cfg.line_width - (first_size : Int)) with
      | [] => none
      | w0 :: ws =>
        some ((st.indent ++ w0) :: ws.map (fun l => List.replicate indent_size ' ' ++ l),
          resetState)

/-- One iteration of the driver loop of `translate_docstring`
(source lines 116-151): classify the line and perform the corresponding
buffer transition, returning the lines emitted for this input line together
with the next buffer state. -/
def step (cfg : Config) (st : BufState) (line_no : Nat) (line : Line) :
    Option (List Line × BufState) :=
  let indent := (splitIndent line).1
  let text := (splitIndent line).2
  if pyStripList line = [] then
    (flushTranslated cfg st).map (fun p => (p.1 ++ [line], p.2))
  else if isSectionDecoration text then
    some ((flushOriginal st).1 ++ [line], (flushOriginal st).2)
  else if (trySplitListHeader text).1 then
    (flushTranslated cfg st).map
      (fun p => (p.1, put p.2 line_no (indent ++ (trySplitListHeader text).2.1)
        (trySplitListHeader text).2.2 line))
  else if indent.length > (if line_no = 1 then cfg.base_indent.length else st.indent.length) then
    (flushTranslated cfg st).map
      (fun p => (p.1, put p.2 line_no indent text line))
  else if indent.length < st.indent.length then
    (flushTranslated cfg st).map
      (fun p => (p.1, put p.2 line_no indent text line))
  else
    some ([], put st line_no indent text line)

/-- The driver fold: process the remaining lines starting at index `i`,
then flush whatever unit is still open (source line 153). -/
def runLines (cfg : Config) : Nat → BufState → List Line → Option (List Line)
  | _, st, [] => (flushTranslated cfg st).map (·.1)
  | i, st, l :: ls =>
    (step cfg st i l).bind fun p => (runLines cfg (i + 1) p.2 ls).map (p.1 ++ ·)

/-- Model of `translate_docstring` at the level of line lists (source lines
109-155): the base indent comes from the last line (`original_lines[-1]`
raises `IndexError` on an empty docstring, modelled as `none`), then the
driver folds over the enumerated lines from the initial buffer state. -/
def translateDocstringLines (lines : List Line) (tr : Line → Line) (line_width : Int) :
    Option (List Line) :=
  match lines.getLast? with
  | none => none
  | some last =>
    runLines ⟨tr, line_width, (splitIndent last).1⟩ 0 resetState lines

/-- Model of `translate_docstring` on the docstring text itself: split into lines,
run the driver, join the result with newlines. -/
def translateDocstring (original : String) (tr : Line → Line) (line_width : Int) :
    Option String :=
  (translateDocstringLines (pySplitlines original.data) tr line_width).map
    (fun ls => String.mk (List.intercalate ['\n'] ls))

/-- The identity catalog: every lookup misses and falls back to the input. -/
def idTr : Line → Line := fun t => t

/-- A line handled by the blank branch or the section-decoration branch of
the driver; such lines are emitted verbatim. -/
def isStructuralLine (l : Line) : Bool :=
  (pyStripList l).isEmpty || isSectionDecoration (pyStripList l)

/-- The list-item classification as the spec words it: a bullet decorator
followed by a space, or digits followed by a period followed by a space.
This definition follows the spec sentence, to be compared against
`trySplitListHeader` from the source. -/
def claimIsListItem (text : Line) : Bool :=
  LIST_DECORATORS.any (fun d => (d ++ [' ']).isPrefixOf text) ||
    (let ds := text.takeWhile Char.isDigit
     !ds.isEmpty && (ds ++ ['.', ' ']).isPrefixOf text)

/-- The translated flush as claim C7 words it: the effective indent width
is `max(unit indent, base indent)` for first and continuation lines alike,
and when the unit starts at line 0 the first-line width budget is further
reduced by the 3-character opening delimiter.  This definition follows the
claim's sentence, to be compared against `flushTranslated` from the
source. -/
def flushTranslatedClaimC7 (cfg : Config) (st : BufState) : Option (List Line × BufState) :=
  if st.lines = [] then some ([], st)
  else
    let translated := cfg.tr (joinSp st.lines)
    if cfg.line_width ≤ 0 then
      some ([st.indent ++ translated], resetState)
    else
      let indent_size := max st.indent.length cfg.base_indent.length
      let delim : Int := if st.start_at = 0 then 3 else 0
      match sphinxWrap translated (cfg.line_width - (indent_size : Int) - delim) with
      | [] => none
      | w0 :: ws =>
        some ((st.indent ++ w0) :: ws.map (fun l => List.replicate indent_size ' ' ++ l),
          resetState)

/-- A one-entry catalog mapping "hello" to "HELLO", used to observe whether
a unit was flushed translated or passed through. -/
def trC9 : Line → Line := fun t => if t = "hello".data then "HELLO".data else t

/-- An acceptable indent string for an emitted line: all whitespace, or a
prefix of some input line (a whitespace indent possibly extended by a list
marker). -/
def PreOk (lines : List Line) (pre : Line) : Prop :=
  pre.all pyIsSpace = true ∨ ∃ src ∈ lines, pre <+: src

/-- The width discipline an output line satisfies: within the configured
width, or a verbatim input line, or an indent prefix followed by one
unbreakable over-long word. -/
def widthOk (lines : List Line) (W : Int) (l : Line) : Prop :=
  ((l.length : Int) ≤ W) ∨ l ∈ lines ∨
    ∃ pre w : Line, l = pre ++ w ∧ w ≠ [] ∧ (∀ c ∈ w, pyIsSpace c = false) ∧
      W < (pre.length : Int) + (w.length : Int) ∧ PreOk lines pre

/-- The driver invariant: the buffer's indent is an acceptable prefix and
every stored raw line is an input line. -/
def InvSt (lines : List Line) (st : BufState) : Prop :=
  PreOk lines st.indent ∧ ∀ o ∈ st.original_lines, o ∈ lines

/-- C1: the claim says an empty docstring (zero lines) yields empty output
without raising.  In fact `original_lines[-1]` on source line 112 raises
`IndexError` for the empty docstring, modelled here as `none`; the
single-line half of the claim does hold (the base indent comes from that
same single line and nothing indexes past the end). -/
theorem C1_empty_docstring_crashes :
    translateDocstring "" idTr 72 = none ∧
    translateDocstring "abc" idTr 0 = some "abc" ∧
    translateDocstringLines ["  hi".data] idTr 0 = some ["  hi".data] := by
  refine ⟨rfl, ?_, by decide⟩
  decide

/-- C4: the claim says a list item's marker always reappears byte-identical
as a prefix of the corresponding output line.  On the docstring consisting
of the single line `"* *"` the item's body `"*"` first occurs at index 0 of
the stripped text, so `text[:text.find(body)]` on source line 93 computes
an empty header: the output line is `"*"` and the marker `"* "` is lost. -/
theorem C4_marker_lost :
    trySplitListHeader "* *".data = (true, [], ['*']) ∧
    translateDocstringLines ["* *".data] idTr 0 = some [['*']] ∧
    ¬ ("* ".data <+: ['*']) := by
  decide

/-- C2, counterexample: with `line_width = 1` the docstring consisting of
one blank line of two spaces is emitted verbatim as a line of length 2 > 1
that contains no word at all, so the claimed exception (a single
untranslatable word already exceeding the width) does not apply. -/
theorem C2_counterexample :
    translateDocstringLines ["  ".data] idTr 1 = some ["  ".data] ∧
    ¬ ((("  ".data : Line).length : Int) ≤ 1) ∧
    ¬ ∃ pre w : Line, "  ".data = pre ++ w ∧ w ≠ [] ∧
      (∀ c ∈ w, pyIsSpace c = false) ∧ (1 : Int) < w.length := by
  refine ⟨by decide, by decide, ?_⟩
  rintro ⟨pre, w, heq, hne, hall, -⟩
  obtain ⟨c, hc⟩ := List.exists_mem_of_ne_nil w hne
  have hmem : c ∈ ("  ".data : Line) := by
    rw [heq]; exact List.mem_append_right _ hc
  have hsp : c = ' ' := by
    simpa using hmem
  have := hall c hc
  rw [hsp] at this
  simp [pyIsSpace] at this

/-- C6, counterexample: at line index 1 the code compares the line's indent
against the base indent, not against the active unit's indent as the claim
says.  Here a unit is active with indent of length 0, the line's indent has
length 2 (an indentation increase under the claim's reference), yet the
code appends the line to the unit — no flush happens and the unit ends up
with two fragments, because the base indent also has length 2. -/
theorem C6_counterexample :
    step ⟨idTr, 0, "  ".data⟩ ⟨0, [], ["hello".data], ["hello".data]⟩ 1 "  world".data =
      some ([], ⟨0, [], ["hello".data, "world".data], ["hello".data, "  world".data]⟩) ∧
    (splitIndent "  world".data).1.length >
      (⟨0, [], ["hello".data], ["hello".data]⟩ : BufState).indent.length ∧
    translateDocstringLines ["hello".data, "  world".data, "  ".data] idTr 0 =
      some ["hello world".data, "  ".data] := by
  decide

/-- C7, counterexample: for a unit starting at line 0 the code computes the
first-line wrap width as `line_width - max(indent, base + 3)`, not as
`line_width - max(indent, base) - 3` as the claim says.  With a unit indent
of 4, an empty base indent and width 10 the code wraps at width 6 and emits
one line, while the claim's arithmetic wraps at width 3 and emits two; the
third conjunct shows the state arises from a whole docstring. -/
theorem C7_counterexample :
    flushTranslated ⟨idTr, 10, []⟩ ⟨0, List.replicate 4 ' ', ["abc de".data], []⟩ =
      some (["    abc de".data], resetState) ∧
    flushTranslatedClaimC7 ⟨idTr, 10, []⟩ ⟨0, List.replicate 4 ' ', ["abc de".data], []⟩ =
      some (["    abc".data, "    de".data], resetState) ∧
    translateDocstringLines ["    abc de".data, []] idTr 10 =
      some ["    abc de".data, []] := by
  decide

/-- C8, counterexample: the regex `^\d+\.` requires no space after the
period, so the stripped text `"2.5"` is classified as a list item by the
code, while the claim's pattern (digits, period, then a space) rejects
it. -/
theorem C8_counterexample :
    (trySplitListHeader "2.5".data).1 = true ∧ claimIsListItem "2.5".data = false := by
  decide

/-- C9, counterexample: a line whose stripped text is the single character
`"="` satisfies `_is_section_decoration` (the loop over `text[1:]` is
vacuous), so it is handled by the decoration branch — the pending unit is
flushed as passthrough and stays untranslated — not by the plain-text
branch as the claim says. -/
theorem C9_counterexample :
    isSectionDecoration ['='] = true ∧
    translateDocstringLines ["hello".data, "=".data] trC9 0 =
      some ["hello".data, "=".data] ∧
    trC9 "hello".data = "HELLO".data := by
  decide

theorem splitIndent_snd {line : Line} (h : pyStripList line ≠ []) :
    (splitIndent line).2 = pyStripList line := by
  simp only [splitIndent]
  rw [if_neg h]

theorem flushTranslated_snd {cfg : Config} {st : BufState} {p : List Line × BufState}
    (h : flushTranslated cfg st = some p) :
    p.2 = resetState ∨ (st.lines = [] ∧ p = ([], st)) := by
  simp only [flushTranslated] at h
  split at h
  · right
    refine ⟨by assumption, ?_⟩
    exact (Option.some_inj.mp h).symm
  · left
    split at h
    · rw [← Option.some_inj.mp h]
    · split at h
      · exact absurd h (by simp)
      · rw [← Option.some_inj.mp h]

theorem flushTranslated_snd_lines {cfg : Config} {st : BufState} {p : List Line × BufState}
    (h : flushTranslated cfg st = some p) : p.2.lines = [] := by
  rcases flushTranslated_snd h with h' | ⟨hl, h'⟩
  · rw [h']; rfl
  · rw [h']; exact hl

/-- C10: an empty-unit `flush_translated` emits nothing and leaves the
buffer in its empty state; `flush_original` always emits exactly the stored
raw lines and resets; a non-empty `flush_translated` always resets; and a
blank line hitting an empty buffer contributes exactly its own verbatim
line, so consecutive blank lines each contribute one line and nothing
else. -/
theorem C10_flush_is_reset (cfg : Config) :
    flushTranslated cfg resetState = some ([], resetState) ∧
    (∀ st : BufState, flushOriginal st = (st.original_lines, resetState)) ∧
    (∀ (st : BufState) (p : List Line × BufState),
      flushTranslated cfg st = some p → st.lines ≠ [] → p.2 = resetState) ∧
    (∀ (i : Nat) (line : Line), pyStripList line = [] →
      step cfg resetState i line = some ([line], resetState)) := by
  refine ⟨rfl, fun st => rfl, ?_, ?_⟩
  · intro st p h hne
    rcases flushTranslated_snd h with h' | ⟨hl, _⟩
    · exact h'
    · exact absurd hl hne
  · intro i line hb
    simp [step, hb, flushTranslated, resetState]

/-- C10, witness: the four parts of `C10_flush_is_reset` instantiated at
concrete buffers and a concrete blank line. -/
theorem C10_witness :
    flushTranslated ⟨idTr, 0, []⟩ resetState = some ([], resetState) ∧
    flushOriginal ⟨0, [], [['a']], [['b']]⟩ = ([['b']], resetState) ∧
    (([['a']], resetState) : List Line × BufState).2 = resetState ∧
    step ⟨idTr, 0, []⟩ resetState 7 [' '] = some ([[' ']], resetState) :=
  ⟨(C10_flush_is_reset ⟨idTr, 0, []⟩).1,
    (C10_flush_is_reset ⟨idTr, 0, []⟩).2.1 ⟨0, [], [['a']], [['b']]⟩,
    (C10_flush_is_reset ⟨idTr, 0, []⟩).2.2.1 ⟨0, [], [['a']], [['b']]⟩
      ([['a']], resetState) (by decide) (by decide),
    (C10_flush_is_reset ⟨idTr, 0, []⟩).2.2.2 7 [' '] (by decide)⟩

/-- C5: on a section-decoration line the driver flushes the unit through
the original-passthrough variant — the stored raw lines verbatim, in
order, untranslated — and then emits the decoration line verbatim; and on
any non-decoration line everything emitted is either nothing, the
translated-flush output, or that output followed by the line itself, so
the passthrough variant is used only ahead of decoration lines. -/
theorem C5_passthrough_only_before_decorations
    (cfg : Config) (st : BufState) (i : Nat) (line : Line) :
    (pyStripList line ≠ [] → isSectionDecoration (pyStripList line) = true →
      step cfg st i line = some (st.original_lines ++ [line], resetState) ∧
      flushOriginal st = (st.original_lines, resetState)) ∧
    ((pyStripList line = [] ∨ isSectionDecoration (pyStripList line) = false) →
      ∀ p : List Line × BufState, step cfg st i line = some p →
        p.1 = [] ∨ ∃ q : List Line × BufState, flushTranslated cfg st = some q ∧
          (p.1 = q.1 ∨ p.1 = q.1 ++ [line])) := by
  constructor
  · intro hne hdeco
    have htext := splitIndent_snd hne
    refine ⟨?_, rfl⟩
    simp [step, hne, htext, hdeco, flushOriginal]
  · intro hcase p hp
    by_cases hb : pyStripList line = []
    · simp only [step, hb, if_pos] at hp
      rw [Option.map_eq_some'] at hp
      obtain ⟨q, hq, hfq⟩ := hp
      exact Or.inr ⟨q, hq, Or.inr (by rw [← hfq])⟩
    · have hd : isSectionDecoration (pyStripList line) = false := hcase.resolve_left hb
      have htext := splitIndent_snd hb
      simp only [step, hb, htext, hd, if_neg, if_false, Bool.false_eq_true] at hp
      repeat' split at hp
      all_goals
        first
        | (rw [Option.map_eq_some'] at hp
           obtain ⟨q, hq, hfq⟩ := hp
           exact Or.inr ⟨q, hq, Or.inl (by rw [← hfq])⟩)
        | exact Or.inl (by rw [← Option.some_inj.mp hp])

/-- C5, witness: the decoration half of
`C5_passthrough_only_before_decorations` at a concrete buffer holding one
pending raw line and at the decoration line `"=="`. -/
theorem C5_witness :
    step ⟨idTr, 0, []⟩ ⟨0, [], [['a']], [['b']]⟩ 3 "==".data =
      some ([['b'], "==".data], resetState) ∧
    flushOriginal ⟨0, [], [['a']], [['b']]⟩ = ([['b']], resetState) :=
  ⟨((C5_passthrough_only_before_decorations ⟨idTr, 0, []⟩ ⟨0, [], [['a']], [['b']]⟩
      3 "==".data).1 (by decide) (by decide)).1,
    ((C5_passthrough_only_before_decorations ⟨idTr, 0, []⟩ ⟨0, [], [['a']], [['b']]⟩
      3 "==".data).1 (by decide) (by decide)).2⟩

/-- C6, amended: the reference indent for the indentation-increase check is
the Base Indent exactly when the line index is 1 (the line right after the
docstring's opening line) and the buffer's current indent otherwise — not
"the unit's indent when active, Base Indent on the very first line" as the
claim says.  On an increase the unit is flushed through the translated
variant and a fresh unit starts at the new indent with this line as its
sole fragment. -/
theorem C6_reference_indent (cfg : Config) (st : BufState) (i : Nat) (line : Line)
    (hblank : pyStripList line ≠ [])
    (hdeco : isSectionDecoration (pyStripList line) = false)
    (hlist : (trySplitListHeader (pyStripList line)).1 = false)
    (hinc : (splitIndent line).1.length >
      (if i = 1 then cfg.base_indent.length else st.indent.length)) :
    step cfg st i line = (flushTranslated cfg st).map
      (fun p => (p.1, put p.2 i (splitIndent line).1 (splitIndent line).2 line)) ∧
    ∀ p : List Line × BufState, flushTranslated cfg st = some p →
      (put p.2 i (splitIndent line).1 (splitIndent line).2 line).lines =
        [(splitIndent line).2] ∧
      (put p.2 i (splitIndent line).1 (splitIndent line).2 line).start_at = (i : Int) ∧
      (put p.2 i (splitIndent line).1 (splitIndent line).2 line).indent =
        (splitIndent line).1 := by
  have htext := splitIndent_snd hblank
  constructor
  · simp [step, hblank, htext, hdeco, hlist, hinc]
  · intro p hp
    have hl : p.2.lines = [] := flushTranslated_snd_lines hp
    simp [put, hl]

/-- C6, witness: `C6_reference_indent` at line index 2 with an active unit
of indent length 0 and a line indented by two spaces: the unit is flushed
and the new unit holds exactly this line. -/
theorem C6_reference_indent_witness :
    step ⟨idTr, 0, []⟩ ⟨0, [], [['a']], [['a']]⟩ 2 "  b".data =
      some ([['a']], ⟨2, [' ', ' '], [['b']], ["  b".data]⟩) := by
  rw [(C6_reference_indent ⟨idTr, 0, []⟩ ⟨0, [], [['a']], [['a']]⟩ 2 "  b".data
    (by decide) (by decide) (by decide) (by decide)).1]
  decide

/-- C7, amended: with wrapping enabled, the first-line indent size is
`max(unit indent, base indent)` except for a unit starting at line 0,
where it is `max(unit indent, base indent + 3)` — the 3-character opening
delimiter is added to the base indent before taking the maximum, so a unit
indent already deeper than base + 3 is not reduced further (the claim's
"reduce the budget by 3" arithmetic is wrong in that case).  The first
output line is prefixed with the unit's indent string and all continuation
lines with `max(unit indent, base indent)` spaces, overriding the wrap
primitive's own output. -/
theorem C7_first_line_budget (cfg : Config) (st : BufState)
    (hW : 0 < cfg.line_width) (hne : st.lines ≠ []) :
    flushTranslated cfg st =
      (match sphinxWrap (cfg.tr (joinSp st.lines))
          (cfg.line_width - ((if st.start_at = 0 then
              max st.indent.length (cfg.base_indent.length + 3)
            else max st.indent.length cfg.base_indent.length : Nat) : Int)) with
      | [] => none
      | w0 :: ws =>
        some ((st.indent ++ w0) ::
          ws.map (fun l =>
            List.replicate (max st.indent.length cfg.base_indent.length) ' ' ++ l),
          resetState)) := by
  have hw' : ¬ cfg.line_width ≤ 0 := by omega
  simp [flushTranslated, hne, hw']

/-- C7, witness: `C7_first_line_budget` at a concrete one-fragment unit not
starting at line 0, width 5. -/
theorem C7_first_line_budget_witness :
    flushTranslated ⟨idTr, 5, []⟩ ⟨2, [], ["ab".data], []⟩ =
      some (["ab".data], resetState) := by
  rw [C7_first_line_budget ⟨idTr, 5, []⟩ ⟨2, [], ["ab".data], []⟩ (by decide) (by decide)]
  decide

/-- C9, amended: a line whose stripped text is one single character from
the decoration symbol set raises no error, but it is classified as a
section decoration and handled by the decoration branch — passthrough
flush of the pending unit and verbatim emission — not by the plain-text
branch. -/
theorem C9_length_one_decoration (cfg : Config) (st : BufState) (i : Nat) (line : Line)
    (c : Char) (hstrip : pyStripList line = [c])
    (hc : SECTION_DECORATOR.contains c = true) :
    step cfg st i line = some (st.original_lines ++ [line], resetState) := by
  have hne : pyStripList line ≠ [] := by simp [hstrip]
  have htext : (splitIndent line).2 = [c] := by rw [splitIndent_snd hne, hstrip]
  have hdeco : isSectionDecoration [c] = true := by
    simp [isSectionDecoration]
    exact List.mem_of_elem_eq_true hc
  simp [step, hne, htext, hstrip, hdeco, flushOriginal]

/-- C9, witness: `C9_length_one_decoration` at the line `" ~"` whose
stripped text is the single decoration character `'~'`. -/
theorem C9_length_one_decoration_witness :
    step ⟨idTr, 0, []⟩ ⟨0, [], [['a']], [['b']]⟩ 4 " ~".data =
      some ([['b'], " ~".data], resetState) :=
  C9_length_one_decoration ⟨idTr, 0, []⟩ ⟨0, [], [['a']], [['b']]⟩ 4 " ~".data '~'
    (by decide) (by decide)

/-- C8, amended: a non-blank, non-decoration line is classified as a list
item exactly when its stripped text begins with a bullet decorator followed
by a space, or with one or more digits followed by a period — with no space
required after the period, unlike the claim's pattern; everything else
falls through to the plain-text classification. -/
theorem C8_list_item_iff (text : Line) :
    (trySplitListHeader text).1 = true ↔
      (LIST_DECORATORS.any (fun d => (d ++ [' ']).isPrefixOf text) = true ∨
        ((text.takeWhile Char.isDigit) ≠ [] ∧
          ['.'] <+: text.drop (text.takeWhile Char.isDigit).length)) := by
  rcases hfind : LIST_DECORATORS.find? (fun d => (d ++ [' ']).isPrefixOf text) with _ | d
  · have hany : LIST_DECORATORS.any (fun d => (d ++ [' ']).isPrefixOf text) = false := by
      rw [List.any_eq_false]
      intro x hx
      simpa using List.find?_eq_none.mp hfind x hx
    rcases hord : orderedListMatch text with _ | m
    · have hnum : ¬ ((text.takeWhile Char.isDigit) ≠ [] ∧
          ['.'] <+: text.drop (text.takeWhile Char.isDigit).length) := by
        rintro ⟨h1, h2⟩
        simp only [orderedListMatch] at hord
        rw [if_neg h1, if_pos ( List.isPrefixOf_iff_prefix.mpr h2)] at hord
        exact Option.noConfusion hord
      have hL : (trySplitListHeader text).1 = false := by
        simp [trySplitListHeader, hfind, hord]
      refine iff_of_false (by simp [hL]) ?_
      rintro (hA | hB)
      · rw [hany] at hA
        exact Bool.false_ne_true hA
      · exact hnum hB
    · have hnum : (text.takeWhile Char.isDigit) ≠ [] ∧
          ['.'] <+: text.drop (text.takeWhile Char.isDigit).length := by
        simp only [orderedListMatch] at hord
        by_cases h1 : text.takeWhile Char.isDigit = []
        · rw [if_pos h1] at hord; exact Option.noConfusion hord
        · by_cases h2 : (['.'] : Line).isPrefixOf (text.drop (text.takeWhile Char.isDigit).length)
          · exact ⟨h1, List.isPrefixOf_iff_prefix.mp h2⟩
          · rw [if_neg h1, if_neg h2] at hord; exact Option.noConfusion hord
      have hL : (trySplitListHeader text).1 = true := by
        simp [trySplitListHeader, hfind, hord]
      exact iff_of_true hL (Or.inr hnum)
  · have hL : (trySplitListHeader text).1 = true := by
      simp [trySplitListHeader, hfind]
    have hp := List.find?_some hfind
    refine iff_of_true hL (Or.inl ?_)
    rw [List.any_eq_true]
    exact ⟨d, List.mem_of_find?_eq_some hfind, hp⟩

theorem step_structural {cfg : Config} {st : BufState} {i : Nat} {line : Line}
    {p : List Line × BufState}
    (hs : isStructuralLine line = true) (h : step cfg st i line = some p) :
    ∃ em, p.1 = em ++ [line] := by
  by_cases hb : pyStripList line = []
  · simp only [step, hb, if_pos, ↓reduceIte] at h
    rw [Option.map_eq_some'] at h
    obtain ⟨q, hq, hfq⟩ := h
    exact ⟨q.1, by rw [← hfq]⟩
  · have hd : isSectionDecoration (pyStripList line) = true := by
      unfold isStructuralLine at hs
      rw [Bool.or_eq_true] at hs
      rcases hs with hs | hs
      · exact absurd (List.isEmpty_iff.mp hs) hb
      · exact hs
    have htext := splitIndent_snd hb
    simp only [step, hb, htext, hd, if_false, ↓reduceIte] at h
    refine ⟨st.original_lines, ?_⟩
    rw [← Option.some_inj.mp h]
    rfl

theorem runLines_sublist (cfg : Config) :
    ∀ (ls : List Line) (i : Nat) (st : BufState) (out : List Line),
      runLines cfg i st ls = some out → (ls.filter isStructuralLine).Sublist out := by
  intro ls
  induction ls with
  | nil => intro i st out _; exact List.nil_sublist out
  | cons l ls ih =>
    intro i st out h
    simp only [runLines] at h
    rw [Option.bind_eq_some] at h
    obtain ⟨p, hstep, hrest⟩ := h
    rw [Option.map_eq_some'] at hrest
    obtain ⟨rest, hrun, hout⟩ := hrest
    by_cases hs : isStructuralLine l = true
    · obtain ⟨em, hem⟩ := step_structural hs hstep
      rw [← hout, hem, List.filter_cons_of_pos hs]
      have h1 : (l :: List.filter isStructuralLine ls).Sublist (l :: rest) :=
        (ih _ _ _ hrun).cons₂ l
      have h2 : (l :: rest).Sublist (em ++ l :: rest) := List.sublist_append_right em _
      have h3 : (em ++ [l]) ++ rest = em ++ l :: rest := by simp
      rw [h3]
      exact h1.trans h2
    · rw [← hout, List.filter_cons_of_neg (by simpa using hs)]
      exact (ih _ _ _ hrun).trans (List.sublist_append_right p.1 rest)

/-- C3: the blank lines and section-decoration lines of the input reappear
in the output byte-identically, with the same count and in the same
relative order: the subsequence of structural input lines is a sublist of
the output lines. -/
theorem C3_structural_lines_sublist (lines : List Line) (tr : Line → Line) (W : Int)
    (out : List Line) (h : translateDocstringLines lines tr W = some out) :
    (lines.filter isStructuralLine).Sublist out := by
  unfold translateDocstringLines at h
  rcases hlast : lines.getLast? with _ | last
  · rw [hlast] at h; exact Option.noConfusion h
  · rw [hlast] at h
    exact runLines_sublist _ lines 0 resetState out h

/-- C3, witness: `C3_structural_lines_sublist` on the concrete docstring
`"x\n\n=="` (one prose line, one blank line, one decoration line). -/
theorem C3_witness :
    ((["x".data, [], "==".data] : List Line).filter isStructuralLine).Sublist
      ["x".data, [], "==".data] :=
  C3_structural_lines_sublist ["x".data, [], "==".data] idTr 0
    ["x".data, [], "==".data] (by decide)

theorem splitWordsAux_sound (t : Line) : ∀ cur : Line,
    (∀ c ∈ cur, pyIsSpace c = false) →
    ∀ w ∈ splitWordsAux cur t, w ≠ [] ∧ ∀ c ∈ w, pyIsSpace c = false := by
  induction t with
  | nil =>
    intro cur hcur w hw
    simp only [splitWordsAux] at hw
    split at hw
    · simp at hw
    · rw [List.mem_singleton] at hw
      subst hw
      refine ⟨by simpa using ‹¬cur = []›, ?_⟩
      intro c hc
      exact hcur c (List.mem_reverse.mp hc)
  | cons c rest ih =>
    intro cur hcur w hw
    simp only [splitWordsAux] at hw
    by_cases hsp : pyIsSpace c
    · rw [if_pos hsp] at hw
      split at hw
      · exact ih [] (by simp) w hw
      · rcases List.mem_cons.mp hw with rfl | hw'
        · refine ⟨by simpa using ‹¬cur = []›, ?_⟩
          intro x hx
          exact hcur x (List.mem_reverse.mp hx)
        · exact ih [] (by simp) w hw'
    · rw [if_neg hsp] at hw
      refine ih (c :: cur) ?_ w hw
      intro x hx
      rcases List.mem_cons.mp hx with rfl | hx'
      · simpa using hsp
      · exact hcur x hx'

theorem splitWords_sound (t : Line) :
    ∀ w ∈ splitWords t, w ≠ [] ∧ ∀ c ∈ w, pyIsSpace c = false :=
  splitWordsAux_sound t [] (by simp)

theorem packWords_sound (W : Int) :
    ∀ (rest : List Line) (cur : Line),
      ((cur.length : Int) ≤ W ∨ (cur ≠ [] ∧ ∀ c ∈ cur, pyIsSpace c = false)) →
      (∀ x ∈ rest, x ≠ [] ∧ ∀ c ∈ x, pyIsSpace c = false) →
      ∀ l ∈ packWords W cur rest,
        ((l.length : Int) ≤ W ∨ (l ≠ [] ∧ ∀ c ∈ l, pyIsSpace c = false)) := by
  intro rest
  induction rest with
  | nil =>
    intro cur hcur _ l hl
    simp only [packWords, List.mem_singleton] at hl
    subst hl
    exact hcur
  | cons word rest ih =>
    intro cur hcur hrest l hl
    simp only [packWords] at hl
    by_cases hfit : (cur.length : Int) + 1 + word.length ≤ W
    · rw [if_pos hfit] at hl
      refine ih (cur ++ ' ' :: word) (Or.inl ?_)
        (fun x hx => hrest x (List.mem_cons_of_mem _ hx)) l hl
      have hlen : ((cur ++ ' ' :: word).length : Int) =
          (cur.length : Int) + 1 + word.length := by
        rw [List.length_append, List.length_cons]
        push_cast
        ring
      rw [hlen]
      exact hfit
    · rw [if_neg hfit] at hl
      rcases List.mem_cons.mp hl with rfl | hl'
      · exact hcur
      · exact ih word (Or.inr (hrest word (List.mem_cons_self _ _)))
          (fun x hx => hrest x (List.mem_cons_of_mem _ hx)) l hl'

theorem sphinxWrap_sound (t : Line) (W : Int) :
    ∀ l ∈ sphinxWrap t W,
      ((l.length : Int) ≤ W ∨ (l ≠ [] ∧ ∀ c ∈ l, pyIsSpace c = false)) := by
  intro l hl
  unfold sphinxWrap at hl
  rcases hw : splitWords t with _ | ⟨word, rest⟩
  · rw [hw] at hl
    simp at hl
  · rw [hw] at hl
    have hword := splitWords_sound t word (by rw [hw]; exact List.mem_cons_self _ _)
    have hrest : ∀ x ∈ rest, x ≠ [] ∧ ∀ c ∈ x, pyIsSpace c = false := by
      intro x hx
      exact splitWords_sound t x (by rw [hw]; exact List.mem_cons_of_mem _ hx)
    exact packWords_sound W rest word (Or.inr hword) hrest l hl

theorem flushTranslated_out (cfg : Config) (st : BufState) (q : List Line × BufState)
    (hW : 0 < cfg.line_width) (h : flushTranslated cfg st = some q) :
    ∀ l ∈ q.1, ((l.length : Int) ≤ cfg.line_width) ∨
      ∃ pre w : Line, l = pre ++ w ∧ w ≠ [] ∧ (∀ c ∈ w, pyIsSpace c = false) ∧
        (pre = st.indent ∨ pre.all pyIsSpace = true) := by
  intro l hl
  by_cases hlines : st.lines = []
  · simp only [flushTranslated, if_pos hlines] at h
    rw [← Option.some_inj.mp h] at hl
    simp at hl
  · have hw' : ¬ cfg.line_width ≤ 0 := by omega
    simp only [flushTranslated, if_neg hlines, if_neg hw'] at h
    rcases hwrap : sphinxWrap (cfg.tr (joinSp st.lines))
        (cfg.line_width - ((if st.start_at = 0 then
          max st.indent.length (cfg.base_indent.length + 3)
        else max st.indent.length cfg.base_indent.length : Nat) : Int)) with _ | ⟨w0, ws⟩
    · rw [hwrap] at h
      exact Option.noConfusion h
    · rw [hwrap] at h
      have hpair := Option.some_inj.mp h
      rw [← hpair] at hl
      have hfs_ge_indent : st.indent.length ≤
          (if st.start_at = 0 then max st.indent.length (cfg.base_indent.length + 3)
           else max st.indent.length cfg.base_indent.length) := by
        split <;> exact le_max_left _ _
      have hind_le_fs : max st.indent.length cfg.base_indent.length ≤
          (if st.start_at = 0 then max st.indent.length (cfg.base_indent.length + 3)
           else max st.indent.length cfg.base_indent.length) := by
        split
        · exact max_le_max (le_refl _) (by omega)
        · exact le_refl _
      rcases List.mem_cons.mp hl with rfl | hl'
      · have hw0 : w0 ∈ sphinxWrap (cfg.tr (joinSp st.lines))
            (cfg.line_width - ((if st.start_at = 0 then
              max st.indent.length (cfg.base_indent.length + 3)
            else max st.indent.length cfg.base_indent.length : Nat) : Int)) := by
          rw [hwrap]
          exact List.mem_cons_self _ _
        rcases sphinxWrap_sound _ _ w0 hw0 with hle | hword
        · left
          have hlen : (((st.indent ++ w0).length : Nat) : Int) =
              (st.indent.length : Int) + (w0.length : Int) := by
            push_cast [List.length_append]
            ring
          rw [hlen]
          have hcast : (st.indent.length : Int) ≤
              ((if st.start_at = 0 then max st.indent.length (cfg.base_indent.length + 3)
               else max st.indent.length cfg.base_indent.length : Nat) : Int) := by
            exact_mod_cast hfs_ge_indent
          omega
        · exact Or.inr ⟨st.indent, w0, rfl, hword.1, hword.2, Or.inl rfl⟩
      · obtain ⟨wi, hwi, hweq⟩ := List.mem_map.mp hl'
        have hwimem : wi ∈ sphinxWrap (cfg.tr (joinSp st.lines))
            (cfg.line_width - ((if st.start_at = 0 then
              max st.indent.length (cfg.base_indent.length + 3)
            else max st.indent.length cfg.base_indent.length : Nat) : Int)) := by
          rw [hwrap]
          exact List.mem_cons_of_mem _ hwi
        rcases sphinxWrap_sound _ _ wi hwimem with hle | hword
        · left
          rw [← hweq]
          have hlen : (((List.replicate (max st.indent.length cfg.base_indent.length) ' '
              ++ wi).length : Nat) : Int) =
              ((max st.indent.length cfg.base_indent.length : Nat) : Int) +
                (wi.length : Int) := by
            push_cast [List.length_append, List.length_replicate]
            ring
          rw [hlen]
          have hcast : ((max st.indent.length cfg.base_indent.length : Nat) : Int) ≤
              ((if st.start_at = 0 then max st.indent.length (cfg.base_indent.length + 3)
               else max st.indent.length cfg.base_indent.length : Nat) : Int) := by
            exact_mod_cast hind_le_fs
          omega
        · refine Or.inr ⟨List.replicate (max st.indent.length cfg.base_indent.length) ' ',
            wi, hweq.symm, hword.1, hword.2, Or.inr ?_⟩
          rw [List.all_eq_true]
          intro c hc
          rw [List.eq_of_mem_replicate hc]
          decide

theorem flush_widthOk (lines : List Line) (cfg : Config) (st : BufState)
    (q : List Line × BufState) (hW : 0 < cfg.line_width)
    (hInv : InvSt lines st) (h : flushTranslated cfg st = some q) :
    ∀ l ∈ q.1, widthOk lines cfg.line_width l := by
  intro l hl
  rcases flushTranslated_out cfg st q hW h l hl with hle | ⟨pre, w, hlw, hwne, hwsp, hpre⟩
  · exact Or.inl hle
  · by_cases hlen : ((l.length : Nat) : Int) ≤ cfg.line_width
    · exact Or.inl hlen
    · refine Or.inr (Or.inr ⟨pre, w, hlw, hwne, hwsp, ?_, ?_⟩)
      · rw [hlw] at hlen
        rw [List.length_append] at hlen
        push_cast at hlen
        omega
      · rcases hpre with hpre | hsp
        · rw [hpre]
          exact hInv.1
        · exact Or.inl hsp

theorem InvSt_reset (lines : List Line) : InvSt lines resetState := by
  refine ⟨Or.inl rfl, ?_⟩
  intro o ho
  simp [resetState] at ho

theorem InvSt_flush (lines : List Line) (cfg : Config) (st : BufState)
    (q : List Line × BufState) (hInv : InvSt lines st)
    (h : flushTranslated cfg st = some q) : InvSt lines q.2 := by
  rcases flushTranslated_snd h with h' | ⟨_, h'⟩
  · rw [h']
    exact InvSt_reset lines
  · rw [h']
    exact hInv

theorem InvSt_put (lines : List Line) (st : BufState) (i : Nat)
    (ind text orig : Line) (hInv : InvSt lines st)
    (hind : PreOk lines ind) (horig : orig ∈ lines) :
    InvSt lines (put st i ind text orig) := by
  constructor
  · show PreOk lines (if st.lines = [] then ind else st.indent)
    by_cases hl : st.lines = []
    · rw [if_pos hl]
      exact hind
    · rw [if_neg hl]
      exact hInv.1
  · intro o ho
    simp only [put] at ho
    rcases List.mem_append.mp ho with h' | h'
    · exact hInv.2 o h'
    · rw [List.mem_singleton.mp h']
      exact horig

theorem splitIndent_fst_prefixOf (line : Line) : (splitIndent line).1 <+: line := by
  simp only [splitIndent]
  split
  · exact List.prefix_refl _
  · exact List.take_prefix _ _

theorem pyFind_spec (sub : Line) : ∀ s : Line, sub <:+: s →
    0 ≤ pyFind sub s ∧ sub <+: s.drop (pyFind sub s).toNat := by
  intro s
  induction s with
  | nil =>
    intro h
    have hsub : sub = [] := List.infix_nil.mp h
    subst hsub
    exact ⟨by simp [pyFind], by simp [pyFind]⟩
  | cons c rest ih =>
    intro h
    by_cases hp : sub.isPrefixOf (c :: rest)
    · refine ⟨by simp [pyFind, hp], ?_⟩
      simp only [pyFind, if_pos hp, Int.toNat_zero, List.drop_zero]
      exact List.isPrefixOf_iff_prefix.mp hp
    · have hsub : sub <:+: rest := by
        obtain ⟨x, y, hxy⟩ := h
        cases x with
        | nil =>
          exfalso
          apply hp
          apply List.isPrefixOf_iff_prefix.mpr
          exact ⟨y, by simpa using hxy⟩
        | cons a x' =>
          rw [List.cons_append, List.cons_append] at hxy
          injection hxy with _ htail
          exact ⟨x', y, htail⟩
      obtain ⟨h0, hpre⟩ := ih hsub
      have hne : ¬ pyFind sub rest = -1 := by omega
      constructor
      · simp only [pyFind, if_neg hp, if_neg hne]
        omega
      · simp only [pyFind, if_neg hp, if_neg hne]
        have ht : (pyFind sub rest + 1).toNat = (pyFind sub rest).toNat + 1 := by omega
        rw [ht, List.drop_succ_cons]
        exact hpre

theorem pyStripList_occurs (l : Line) : pyStripList l <:+: l := by
  unfold pyStripList
  have h1 : l.dropWhile pyIsSpace <:+ l := List.dropWhile_suffix _
  have h2 : (l.dropWhile pyIsSpace).reverse.dropWhile pyIsSpace <:+
      (l.dropWhile pyIsSpace).reverse := List.dropWhile_suffix _
  have h3 : ((l.dropWhile pyIsSpace).reverse.dropWhile pyIsSpace).reverse <+:
      l.dropWhile pyIsSpace := List.reverse_suffix.mp (by simpa using h2)
  exact h3.isInfix.trans h1.isInfix

theorem splitIndent_append_strip (line : Line) (h : pyStripList line ≠ []) :
    (splitIndent line).1 ++ pyStripList line <+: line := by
  have hfind := pyFind_spec (pyStripList line) line (pyStripList_occurs line)
  simp only [splitIndent, if_neg h]
  have hslice : pySliceTo line (pyFind (pyStripList line) line) =
      line.take (pyFind (pyStripList line) line).toNat := by
    unfold pySliceTo
    rw [if_neg (by omega)]
  rw [hslice]
  obtain ⟨t, ht⟩ := hfind.2
  refine ⟨t, ?_⟩
  rw [List.append_assoc, ht, List.take_append_drop]

theorem splitHeader_fst_prefixOf (text header : Line) :
    (splitHeader text header).1 <+: text := by
  simp only [splitHeader]
  unfold pySliceTo
  exact List.take_prefix _ _

theorem trySplit_header_prefixOf (text : Line) :
    (trySplitListHeader text).2.1 <+: text := by
  unfold trySplitListHeader
  split
  · exact splitHeader_fst_prefixOf _ _
  · split
    · exact splitHeader_fst_prefixOf _ _
    · exact List.nil_prefix

theorem unit_prefix_of_list (line : Line) (h : pyStripList line ≠ []) :
    (splitIndent line).1 ++ (trySplitListHeader (pyStripList line)).2.1 <+: line := by
  obtain ⟨u, hu⟩ := trySplit_header_prefixOf (pyStripList line)
  have h2 := splitIndent_append_strip line h
  have h3 : (splitIndent line).1 ++ (trySplitListHeader (pyStripList line)).2.1 <+:
      (splitIndent line).1 ++ pyStripList line := by
    refine ⟨u, ?_⟩
    rw [List.append_assoc, hu]
  exact h3.trans h2

theorem flushPut_ok (lines : List Line) (cfg : Config) (st : BufState) (i : Nat)
    (ind text orig : Line) (p : List Line × BufState)
    (hW : 0 < cfg.line_width) (hInv : InvSt lines st)
    (hind : PreOk lines ind) (horig : orig ∈ lines)
    (h : (flushTranslated cfg st).map (fun q => (q.1, put q.2 i ind text orig)) = some p) :
    (∀ l ∈ p.1, widthOk lines cfg.line_width l) ∧ InvSt lines p.2 := by
  rw [Option.map_eq_some'] at h
  obtain ⟨q, hq, hfq⟩ := h
  rw [← hfq]
  exact ⟨flush_widthOk lines cfg st q hW hInv hq,
    InvSt_put lines q.2 i ind text orig (InvSt_flush lines cfg st q hInv hq) hind horig⟩

theorem step_widthOk (lines : List Line) (cfg : Config) (st : BufState) (i : Nat)
    (line : Line) (p : List Line × BufState)
    (hW : 0 < cfg.line_width) (hInv : InvSt lines st) (hline : line ∈ lines)
    (h : step cfg st i line = some p) :
    (∀ l ∈ p.1, widthOk lines cfg.line_width l) ∧ InvSt lines p.2 := by
  by_cases hb : pyStripList line = []
  · simp only [step, hb, if_pos, ↓reduceIte] at h
    rw [Option.map_eq_some'] at h
    obtain ⟨q, hq, hfq⟩ := h
    rw [← hfq]
    constructor
    · intro l hl
      rcases List.mem_append.mp hl with hl' | hl'
      · exact flush_widthOk lines cfg st q hW hInv hq l hl'
      · rw [List.mem_singleton.mp hl']
        exact Or.inr (Or.inl hline)
    · exact InvSt_flush lines cfg st q hInv hq
  · have htext := splitIndent_snd hb
    by_cases hd : isSectionDecoration (pyStripList line) = true
    · simp only [step, hb, htext, hd, if_false, ↓reduceIte] at h
      rw [← Option.some_inj.mp h]
      constructor
      · intro l hl
        rcases List.mem_append.mp hl with hl' | hl'
        · exact Or.inr (Or.inl (hInv.2 l hl'))
        · rw [List.mem_singleton.mp hl']
          exact Or.inr (Or.inl hline)
      · exact InvSt_reset lines
    · have hd' : isSectionDecoration (pyStripList line) = false := by
        simpa using hd
      have hindPre : PreOk lines (splitIndent line).1 :=
        Or.inr ⟨line, hline, splitIndent_fst_prefixOf line⟩
      simp only [step, hb, htext, hd', if_false, Bool.false_eq_true, ↓reduceIte] at h
      repeat' split at h
      all_goals
        first
        | exact flushPut_ok lines cfg st i _ _ line p hW hInv
            (Or.inr ⟨line, hline, unit_prefix_of_list line hb⟩) hline h
        | exact flushPut_ok lines cfg st i _ _ line p hW hInv hindPre hline h
        | (rw [← Option.some_inj.mp h]
           exact ⟨by intro l hl; simp at hl,
             InvSt_put lines st i _ _ line hInv hindPre hline⟩)

theorem runLines_widthOk (lines : List Line) (cfg : Config) (hW : 0 < cfg.line_width) :
    ∀ (ls : List Line) (i : Nat) (st : BufState) (out : List Line),
      (∀ x ∈ ls, x ∈ lines) → InvSt lines st →
      runLines cfg i st ls = some out →
      ∀ l ∈ out, widthOk lines cfg.line_width l := by
  intro ls
  induction ls with
  | nil =>
    intro i st out _ hInv h l hl
    simp only [runLines] at h
    rw [Option.map_eq_some'] at h
    obtain ⟨q, hq, hout⟩ := h
    rw [← hout] at hl
    exact flush_widthOk lines cfg st q hW hInv hq l hl
  | cons x ls ih =>
    intro i st out hsub hInv h l hl
    simp only [runLines] at h
    rw [Option.bind_eq_some] at h
    obtain ⟨p, hstep, hrest⟩ := h
    rw [Option.map_eq_some'] at hrest
    obtain ⟨rest, hrun, hout⟩ := hrest
    have hstepok := step_widthOk lines cfg st i x p hW hInv
      (hsub x (List.mem_cons_self _ _)) hstep
    rw [← hout] at hl
    rcases List.mem_append.mp hl with hl' | hl'
    · exact hstepok.1 l hl'
    · exact ih (i + 1) p.2 rest (fun y hy => hsub y (List.mem_cons_of_mem _ hy))
        hstepok.2 hrun l hl'

/-- C2, amended: with `line_width = W > 0` every output line either fits in
`W`, or is a verbatim input line (blank lines, section decorations and
passthrough-flushed originals are reproduced unchanged whatever their
length), or consists of an indent prefix (all whitespace, or a prefix of an
input line, i.e. an indent possibly extended by a list marker) followed by
a single unbreakable word that together with the prefix exceeds `W` — the
word itself need not exceed `W`, because the effective indent also eats
into the budget. -/
theorem C2_width_bound (lines : List Line) (tr : Line → Line) (W : Int) (hW : 0 < W)
    (out : List Line) (h : translateDocstringLines lines tr W = some out) :
    ∀ l ∈ out, ((l.length : Int) ≤ W) ∨ l ∈ lines ∨
      ∃ pre w : Line, l = pre ++ w ∧ w ≠ [] ∧ (∀ c ∈ w, pyIsSpace c = false) ∧
        W < (pre.length : Int) + (w.length : Int) ∧
        (pre.all pyIsSpace = true ∨ ∃ src ∈ lines, pre <+: src) := by
  unfold translateDocstringLines at h
  rcases hlast : lines.getLast? with _ | last
  · rw [hlast] at h
    exact Option.noConfusion h
  · rw [hlast] at h
    intro l hl
    exact runLines_widthOk lines ⟨tr, W, (splitIndent last).1⟩ hW lines 0 resetState out
      (fun _ hx => hx) (InvSt_reset lines) h l hl

/-- C2, witness: `C2_width_bound` on the one-line docstring `"ab"` with the
identity catalog at width 72, instantiated at the single output line. -/
theorem C2_width_bound_witness :
    ((("ab".data : Line).length : Int) ≤ 72) ∨
      "ab".data ∈ (["ab".data] : List Line) ∨
      ∃ pre w : Line, "ab".data = pre ++ w ∧ w ≠ [] ∧ (∀ c ∈ w, pyIsSpace c = false) ∧
        (72 : Int) < (pre.length : Int) + (w.length : Int) ∧
        (pre.all pyIsSpace = true ∨ ∃ src ∈ (["ab".data] : List Line), pre <+: src) :=
  C2_width_bound ["ab".data] idTr 72 (by decide) ["ab".data] (by decide)
    "ab".data (by decide)

end Transpyimo
